import Mathlib

/-!
Verification of the probabilistic CKY parser (`pcky.py`).

The embedding below mirrors the two classes of the source file:

* `CodeBook` (a bijection between the grammar's left-hand-side symbols and
  dense indices) is modelled by the list `codebookOf` of symbols in first-
  occurrence order together with `idxOf`; the Python class enumerates a
  `set`, whose order is unspecified, and the spec declares the order
  irrelevant.
* `PCKYParser` is modelled by `Parser` (its immutable fields `grammar` and
  `index`), with `Parser.terminals`, `Parser.nonterminals`, `parse`
  (the chart fill plus `build_tree`) and `build_tree` translated loop by
  loop from the source.  The numpy chart of shape
  `(n+1, n+1, |symbols|)` is modelled by total functions from indices,
  together with explicit bound checks wherever the source indexes the
  array, so that an out-of-bounds numpy access appears as `Err.idxErr`.
  Python exceptions are modelled by `Except`: `KeyError` from
  `self.index[root]` is `Err.keyErr`, a numpy `IndexError` is `Err.idxErr`,
  and the `ValueError` from unpacking a stored token in the recursive case
  of `build_tree` is `Err.valErr` (that branch is unreachable from charts
  produced by the fill).  The `TypeError` raised by unpacking an empty
  cell is caught by the source and turned into the null tree; the model
  therefore returns the null tree directly in that branch.  `build_tree`
  recurses on stored split points, which for an adversarial table need
  not shrink, so the model takes a fuel argument; `parse` passes
  `length + 1`, which is enough for every chart the fill produces because
  stored splits satisfy `i < k < j`.

Probabilities are embedded as rationals; the source uses floating point,
whose rounding is outside the scope of the claims checked here.
-/

namespace PCKY

/-- Nonterminal symbols (nltk `Nonterminal`) are string-like identities. -/
abbrev Sym := String

/-- Terminal tokens are strings. -/
abbrev Tok := String

/-- A production of a CNF grammar as held by a constructed parser: either
lexical-unary (`lhs -> tok`) or binary non-lexical (`lhs -> left right`),
each carrying its probability.  Non-CNF shapes are rejected by
`load_grammar` before a parser exists, see `RawProduction`. -/
inductive Production where
  | lex (lhs : Sym) (tok : Tok) (prob : ℚ)
  | bin (lhs : Sym) (left : Sym) (right : Sym) (prob : ℚ)
deriving DecidableEq, Repr

/-- `Production.lhs` of the source (nltk). -/
def Production.lhsOf : Production → Sym
  | .lex l _ _ => l
  | .bin l _ _ _ => l

/-- nltk `Production.is_lexical`: the right-hand side holds a terminal.
On CNF-shaped productions this is exactly the `lex` constructor. -/
def Production.isLex : Production → Bool
  | .lex .. => true
  | .bin .. => false

/-- Enumeration of a collection of names keeping the first occurrence of
each, dropping later duplicates; models `CodeBook.__init__` enumerating
the set of left-hand-side symbols (set order is unspecified in Python;
the spec makes the codebook order irrelevant, so one fixed order is
chosen). -/
def dedupAux : List Sym → List Sym → List Sym
  | [], acc => acc.reverse
  | x :: xs, acc => if x ∈ acc then dedupAux xs acc else dedupAux xs (x :: acc)

/-- The codebook built from a list of symbols. -/
def codebookOf (l : List Sym) : List Sym := dedupAux l []

/-- `CodeBook.__getitem__`: the dense index of a symbol.  The Python dict
lookup raises `KeyError` for unregistered symbols; callers below guard
every use with a membership test mirroring where the source can raise. -/
def idxOf : List Sym → Sym → ℕ
  | [], _ => 0
  | x :: xs, s => if x = s then 0 else idxOf xs s + 1

/-- The immutable state of a constructed `PCKYParser`: the validated
grammar productions and the start symbol.  The codebook `index` is
derived from the productions exactly as in `__init__`. -/
structure Parser where
  prods : List Production
  start : Sym
deriving DecidableEq, Repr

/-- `self.index = CodeBook(set(map(Production.lhs, productions)))`. -/
def Parser.index (P : Parser) : List Sym := codebookOf (P.prods.map Production.lhsOf)

/-- `PCKYParser.terminals`: productions of the form `A -> word`. -/
def Parser.terminals (P : Parser) : List Production :=
  P.prods.filter fun p => p.isLex

/-- `PCKYParser.nonterminals`: productions of the form `A -> B C`. -/
def Parser.nonterminals (P : Parser) : List Production :=
  P.prods.filter fun p => !p.isLex

/-- The set `set(map(Production.lhs, self.terminals()))` consulted by
`build_tree`, as a list (membership is all that is used). -/
def Parser.lexLhsSyms (P : Parser) : List Sym :=
  P.terminals.map Production.lhsOf

/-- A backpointer cell value: the source stores either a token string
(`production.rhs()[0]`, lexical fill) or a tuple `(k, B, C)` (binary
fill); an untouched cell of the `dtype=object` array holds `None`,
modelled by the surrounding `Option`. -/
inductive BackPtr where
  | tok (t : Tok)
  | split (k : ℕ) (left : Sym) (right : Sym)
deriving DecidableEq, Repr

/-- The two per-parse numpy arrays `matrix` (scores, zero-initialised) and
`back_pointer_matrix` (`None`-initialised), as total functions; bound
checks are performed at each read that the source performs. -/
structure Chart where
  score : ℕ → ℕ → ℕ → ℚ
  back : ℕ → ℕ → ℕ → Option BackPtr

/-- Pointwise functional update of a three-index table. -/
def upd3 {α : Type} (f : ℕ → ℕ → ℕ → α) (i j a : ℕ) (v : α) : ℕ → ℕ → ℕ → α :=
  fun i' j' a' => if i' = i ∧ j' = j ∧ a' = a then v else f i' j' a'

/-- Fresh chart: `np.zeros` and `np.empty(dtype=object)` (all `None`). -/
def Chart.init : Chart := ⟨fun _ _ _ => 0, fun _ _ _ => none⟩

/-- One iteration of the lexical fill loop body, for one production
matching the current word (source lines 58-61): sets
`matrix[j-1,j,a] = prob` and `back_pointer_matrix[j,j,a] = rhs[0]`.
Note the backpointer is stored at `[j,j]`, on the diagonal. -/
def lexStep (P : Parser) (j : ℕ) (ch : Chart) : Production → Chart
  | .lex lhs tok prob =>
    let a := idxOf P.index lhs
    ⟨upd3 ch.score (j-1) j a prob, upd3 ch.back j j a (some (.tok tok))⟩
  | .bin .. => ch

/-- The filter realised by `self.grammar.productions(rhs=word)`: nltk
selects productions whose first right-hand-side item equals the query;
a binary production's first item is a `Nonterminal`, never equal to a
token string. -/
def lexMatches (w : Tok) : Production → Bool
  | .lex _ t _ => t == w
  | .bin .. => false

/-- The lexical fill for position `j` (source lines 57-61). -/
def lexFill (P : Parser) (w : Tok) (j : ℕ) (ch : Chart) : Chart :=
  (P.prods.filter (lexMatches w)).foldl (lexStep P j) ch

/-- Body of the innermost binary-fill loop (source lines 65-75) for one
production: compute `candidate = prob * score[i,k,b] * score[k,j,c]` and,
if it strictly beats `score[i,j,a]`, overwrite score and backpointer.
The source looks the three indices up with `CodeBook.get`, which returns
`None` for a right-hand-side symbol that is not a left-hand side anywhere
and then derails the numpy indexing; theorems about the fill therefore
carry the well-formedness hypothesis `wfGrammar` making every such symbol
registered, which is the codebook-coverage precondition stated by the
spec for the chart parser. -/
def binStep (P : Parser) (i k j : ℕ) (ch : Chart) : Production → Chart
  | .lex .. => ch
  | .bin lhs l r prob =>
    let a := idxOf P.index lhs
    let b := idxOf P.index l
    let c := idxOf P.index r
    let s := prob * ch.score i k b * ch.score k j c
    if ch.score i j a < s then
      ⟨upd3 ch.score i j a s, upd3 ch.back i j a (some (.split k l r))⟩
    else ch

/-- The split-point loop `for k in range(i+1, j)` (source line 64). -/
def binFillK (P : Parser) (i j : ℕ) (ch : Chart) : Chart :=
  (List.range' (i+1) (j - i - 1)).foldl
    (fun ch k => (P.nonterminals).foldl (binStep P i k j) ch) ch

/-- The span loop `for i in range(j-2, -1, -1)` (source line 63). -/
def binFillI (P : Parser) (j : ℕ) (ch : Chart) : Chart :=
  ((List.range (j-1)).reverse).foldl (fun ch i => binFillK P i j ch) ch

/-- One iteration of the outer loop `for j in range(1, len(words)+1)`
(source lines 55-75): lexical fill for the word ending at `j`, then the
binary fill for all spans ending at `j`. -/
def fillJ (P : Parser) (ws : List Tok) (j : ℕ) (ch : Chart) : Chart :=
  binFillI P j (lexFill P (ws.getD (j-1) "") j ch)

/-- The full dynamic program: both tables after the outer loop. -/
def fillChart (P : Parser) (ws : List Tok) : Chart :=
  (List.range' 1 ws.length).foldl (fun ch j => fillJ P ws j ch) Chart.init

/-- Exceptions that can escape `parse`/`build_tree`: `KeyError` from the
codebook lookup, numpy `IndexError` from an out-of-bounds chart access,
`ValueError` from unpacking a stored token in the recursive case, and
fuel exhaustion (unreachable from charts produced by the fill). -/
inductive Err where
  | keyErr
  | idxErr
  | valErr
  | fuelErr
deriving DecidableEq, Repr

/-- The parse trees the source can build (nltk `Tree` values as produced
by `build_tree`): the null sentinel `Tree(None, [])`, a lexical node
`Tree(root, [cell])` whose single child is the raw content of a diagonal
backpointer cell (a token, or `None` when that cell was never written),
and a binary node `Tree(root, [left, right])`. -/
inductive PTree where
  | null
  | lexNode (label : Sym) (child : Option BackPtr)
  | binNode (label : Sym) (l : PTree) (r : PTree)
deriving DecidableEq, Repr

/-- `PCKYParser.build_tree` (source lines 83-104).  `n` is the chart
bound (`len(words)`), `fuel` bounds the recursion depth (the Python
function recurses without a bound; on fill-produced charts the depth is
at most the span width since stored splits satisfy `i < k < j`).
Faithful control flow: the codebook lookup comes first (`KeyError`
if the root is unregistered); if the root is the left-hand side of any
lexical production the function returns a one-child tree built from the
diagonal cell `back[row+1, row+1, a]` regardless of `col` (raising
`IndexError` when `row+1` exceeds the bound); otherwise the cell
`back[row, col, a]` is unpacked, an empty cell becoming the null tree
(the source catches the `TypeError`), a stored token raising
`ValueError` (string unpacking), and a stored split recursing on both
halves with errors re-raised. -/
def build_tree (P : Parser) (back : ℕ → ℕ → ℕ → Option BackPtr) (n : ℕ) :
    ℕ → ℕ → ℕ → Sym → Except Err PTree
  | 0, _, _, _ => .error .fuelErr
  | fuel+1, row, col, root =>
    if root ∈ P.index then
      let a := idxOf P.index root
      if root ∈ P.lexLhsSyms then
        if row + 1 ≤ n then .ok (.lexNode root (back (row+1) (row+1) a))
        else .error .idxErr
      else
        if row ≤ n ∧ col ≤ n then
          match back row col a with
          | none => .ok .null
          | some (.tok _) => .error .valErr
          | some (.split k b c) =>
            match build_tree P back n fuel row k b,
                  build_tree P back n fuel k col c with
            | .ok lt, .ok rt => .ok (.binNode root lt rt)
            | .error e, _ => .error e
            | .ok _, .error e => .error e
        else .error .idxErr
    else .error .keyErr

/-- `PCKYParser.parse` (source lines 45-81): fill the two tables, then
reconstruct from the top cell `(0, len(words))` rooted at the start
symbol.  `.ok t` is the returned tree, `.error e` an escaped exception. -/
def parse (P : Parser) (ws : List Tok) : Except Err PTree :=
  build_tree P (fillChart P ws).back ws.length (ws.length + 1) 0 ws.length P.start

/-- One call of the `parse` method on the parser object: the result
together with the object state after the call.  The method reads
`self.grammar` and `self.index` and writes neither; the chart arrays are
local to the call. -/
def parseRun (P : Parser) (ws : List Tok) : (Except Err PTree) × Parser :=
  (parse P ws, P)

/-- The tokens at the leaves of a tree, left to right. -/
def leaves : PTree → List Tok
  | .null => []
  | .lexNode _ (some (.tok t)) => [t]
  | .lexNode _ _ => []
  | .binNode _ l r => leaves l ++ leaves r

/-- Codebook coverage: every symbol on the right-hand side of a binary
production is registered (is some production's left-hand side).  The
spec requires the chart parser to be given a codebook covering all
symbols of the grammar; when this fails, the source's `CodeBook.get`
returns `None` inside the binary fill and the numpy indexing misbehaves
instead of computing a chart. -/
def wfGrammar (P : Parser) : Bool :=
  P.prods.all fun p => match p with
    | .lex .. => true
    | .bin _ l r _ => P.index.contains l && P.index.contains r

/-- An item on the right-hand side of a raw (unvalidated) production. -/
inductive RhsItem where
  | nonterm (s : Sym)
  | term (t : Tok)
deriving DecidableEq, Repr

/-- A production as parsed from the grammar file, before the CNF check;
`PCFG.fromstring` and rule representation are external collaborators,
so only the shape information consumed by the CNF check is kept. -/
structure RawProduction where
  lhs : Sym
  rhs : List RhsItem
  prob : ℚ
deriving DecidableEq, Repr

/-- nltk `Production.is_nonlexical`: all right-hand items nonterminal. -/
def RawProduction.is_nonlexical (p : RawProduction) : Bool :=
  p.rhs.all fun x => match x with | .nonterm _ => true | .term _ => false

/-- nltk `Production.is_lexical`: some right-hand item is a terminal. -/
def RawProduction.is_lexical (p : RawProduction) : Bool := !p.is_nonlexical

/-- The per-production CNF condition behind nltk's grammar-level
`is_chomsky_normal_form`: lexical-unary or binary-non-lexical. -/
def RawProduction.is_cnf (p : RawProduction) : Bool :=
  (p.is_lexical && p.rhs.length == 1) || (p.is_nonlexical && p.rhs.length == 2)

/-- `PCFG.is_chomsky_normal_form()` over the production list. -/
def is_chomsky_normal_form (rs : List RawProduction) : Bool :=
  rs.all RawProduction.is_cnf

/-- `PCKYParser.load_grammar` (source lines 23-29) minus the file I/O:
return the grammar if it is CNF, otherwise raise `ValueError` with the
source's message. -/
def load_grammar (rs : List RawProduction) : Except String (List RawProduction) :=
  if is_chomsky_normal_form rs then .ok rs else .error "grammar not in Chomsky normal form"

/-- Shape conversion of a validated production into the CNF form used by
the parser; defined exactly on CNF-shaped productions. -/
def toProduction (p : RawProduction) : Option Production :=
  match p.rhs with
  | [.term t] => some (.lex p.lhs t p.prob)
  | [.nonterm b, .nonterm c] => some (.bin p.lhs b c p.prob)
  | _ => none

/-- `PCKYParser.__init__`: validate through `load_grammar`, then build
the parser state (the start symbol of an nltk grammar read from text is
the left-hand side of the first production).  The chart-filling core is
only ever given a `Parser` produced here, so it never sees a non-CNF
grammar; the inner `none` branch is unreachable since every production
passing the CNF check converts. -/
def mkParser (rs : List RawProduction) : Except String Parser :=
  match load_grammar rs with
  | .error e => .error e
  | .ok v =>
    match v.mapM toProduction with
    | some ps => .ok ⟨ps, (rs.headD ⟨"", [], 0⟩).lhs⟩
    | none => .error "grammar not in Chomsky normal form"

/-- The grammar of the repository's `trivial.pcfg` test fixture:
`A -> B C [1.0]`, `B -> left [1.0]`, `C -> right [1.0]`, start `A`. -/
def trivParser : Parser :=
  ⟨[.bin "A" "B" "C" 1, .lex "B" "left" 1, .lex "C" "right" 1], "A"⟩

/-- A one-rule CNF grammar whose start symbol is a lexical left-hand
side: `B -> a [1.0]`, start `B`. -/
def lexStartParser : Parser := ⟨[.lex "B" "a" 1], "B"⟩

/-- A CNF grammar with a dual-role symbol (lexical and binary left-hand
side): `S -> x [0.5]`, `S -> S S [0.5]`, start `S`. -/
def dualRoleParser : Parser :=
  ⟨[.lex "S" "x" (1/2), .bin "S" "S" "S" (1/2)], "S"⟩

/-- A purely binary CNF grammar (no lexical productions), used to probe
`build_tree` on hand-made backpointer tables. -/
def nonlexParser : Parser :=
  ⟨[.bin "S" "B" "C" 1, .bin "B" "S" "S" 1, .bin "C" "S" "S" 1], "S"⟩

/-- A backpointer table holding a single malformed split for the span
`[0, 2)` of the start symbol: the stored split point `k = 0` violates
the fill invariant `i < k < j`. -/
def badBack : ℕ → ℕ → ℕ → Option BackPtr :=
  fun i j a => if i = 0 ∧ j = 2 ∧ a = 0 then some (.split 0 "B" "C") else none

/-- Raw form of `trivial.pcfg`. -/
def trivRaw : List RawProduction :=
  [⟨"A", [.nonterm "B", .nonterm "C"], 1⟩,
   ⟨"B", [.term "left"], 1⟩,
   ⟨"C", [.term "right"], 1⟩]

/-- Raw form of the lexical-start grammar. -/
def lexStartRaw : List RawProduction := [⟨"B", [.term "a"], 1⟩]

/-- Raw form of the dual-role grammar. -/
def dualRoleRaw : List RawProduction :=
  [⟨"S", [.term "x"], 1/2⟩, ⟨"S", [.nonterm "S", .nonterm "S"], 1/2⟩]

/-- A grammar with one trinary rule (the repository's `non_cnf.pcfg`
scenario): `A -> B C D [1.0]`. -/
def nonCnfRaw : List RawProduction :=
  [⟨"A", [.nonterm "B", .nonterm "C", .nonterm "D"], 1⟩]

/-- A property preserved by every step of a left fold is preserved by
the whole fold. -/
theorem foldl_inv {α β : Type} (Q : α → Prop) (f : α → β → α) :
    ∀ (l : List β) (b : α), Q b → (∀ x ∈ l, ∀ a, Q a → Q (f a x)) → Q (l.foldl f b)
  | [], _, hb, _ => hb
  | x :: xs, b, hb, hstep =>
    foldl_inv Q f xs (f b x) (hstep x (by simp) b hb)
      (fun y hy a ha => hstep y (by simp [hy]) a ha)

/-- Membership in the deduplicating accumulator. -/
theorem mem_dedupAux (x : Sym) :
    ∀ (l acc : List Sym), x ∈ dedupAux l acc ↔ x ∈ l ∨ x ∈ acc
  | [], acc => by simp [dedupAux]
  | y :: ys, acc => by
    by_cases hy : y ∈ acc
    · rw [dedupAux, if_pos hy, mem_dedupAux x ys acc]
      constructor
      · rintro (h | h)
        · exact Or.inl (List.mem_cons_of_mem _ h)
        · exact Or.inr h
      · rintro (h | h)
        · rcases List.mem_cons.mp h with rfl | h
          · exact Or.inr hy
          · exact Or.inl h
        · exact Or.inr h
    · rw [dedupAux, if_neg hy, mem_dedupAux x ys (y :: acc)]
      constructor
      · rintro (h | h)
        · exact Or.inl (List.mem_cons_of_mem _ h)
        · rcases List.mem_cons.mp h with rfl | h
          · exact Or.inl (List.mem_cons_self _ _)
          · exact Or.inr h
      · rintro (h | h)
        · rcases List.mem_cons.mp h with rfl | h
          · exact Or.inr (List.mem_cons_self _ _)
          · exact Or.inl h
        · exact Or.inr (List.mem_cons_of_mem _ h)

/-- The deduplicating accumulator yields no duplicates. -/
theorem nodup_dedupAux :
    ∀ (l acc : List Sym), acc.Nodup → (dedupAux l acc).Nodup
  | [], acc, h => by simpa [dedupAux] using h
  | y :: ys, acc, h => by
    by_cases hy : y ∈ acc
    · rw [dedupAux, if_pos hy]
      exact nodup_dedupAux ys acc h
    · rw [dedupAux, if_neg hy]
      exact nodup_dedupAux ys (y :: acc) (List.nodup_cons.mpr ⟨hy, h⟩)

/-- The codebook registers exactly the given symbols. -/
theorem mem_codebookOf (x : Sym) (l : List Sym) : x ∈ codebookOf l ↔ x ∈ l := by
  rw [codebookOf, mem_dedupAux]
  simp

/-- The codebook has no duplicates: each symbol has one index. -/
theorem nodup_codebookOf (l : List Sym) : (codebookOf l).Nodup :=
  nodup_dedupAux l [] List.nodup_nil

/-- Unfolding of `idxOf` on a nonempty codebook. -/
theorem idxOf_cons (x : Sym) (xs : List Sym) (s : Sym) :
    idxOf (x :: xs) s = if x = s then 0 else idxOf xs s + 1 := rfl

/-- On a duplicate-free codebook, distinct registered symbols receive
distinct indices. -/
theorem idxOf_inj :
    ∀ (l : List Sym), l.Nodup → ∀ s t : Sym, s ∈ l → t ∈ l →
      idxOf l s = idxOf l t → s = t
  | [], _, s, _, hs, _, _ => absurd hs (List.not_mem_nil s)
  | x :: xs, hnd, s, t, hs, ht, heq => by
    rcases List.nodup_cons.mp hnd with ⟨hx, hnd'⟩
    by_cases hxs : x = s
    · by_cases hxt : x = t
      · exact hxs ▸ hxt
      · rw [idxOf_cons, if_pos hxs, idxOf_cons, if_neg hxt] at heq
        exact absurd heq.symm (Nat.succ_ne_zero _)
    · by_cases hxt : x = t
      · rw [idxOf_cons, if_neg hxs, idxOf_cons, if_pos hxt] at heq
        exact absurd heq (Nat.succ_ne_zero _)
      · rw [idxOf_cons, if_neg hxs, idxOf_cons, if_neg hxt] at heq
        have hs' : s ∈ xs := by
          rcases List.mem_cons.mp hs with rfl | h
          · exact absurd rfl hxs
          · exact h
        have ht' : t ∈ xs := by
          rcases List.mem_cons.mp ht with rfl | h
          · exact absurd rfl hxt
          · exact h
        exact idxOf_inj xs hnd' s t hs' ht' (Nat.succ_injective heq)

/-- Every left-hand-side symbol of a production of the grammar is
registered in the parser's codebook. -/
theorem lhs_mem_index (P : Parser) (p : Production) (hp : p ∈ P.prods) :
    p.lhsOf ∈ P.index := by
  rw [Parser.index, mem_codebookOf]
  exact List.mem_map_of_mem Production.lhsOf hp

/-- A lexical left-hand-side symbol is registered in the codebook. -/
theorem lexLhs_mem_index (P : Parser) (root : Sym) (h : root ∈ P.lexLhsSyms) :
    root ∈ P.index := by
  rw [Parser.lexLhsSyms] at h
  rcases List.mem_map.mp h with ⟨p, hp, rfl⟩
  exact lhs_mem_index P p (List.mem_of_mem_filter hp)

/-- Writing a cell then reading it back. -/
theorem upd3_same {α : Type} (f : ℕ → ℕ → ℕ → α) (i j a : ℕ) (v : α) :
    upd3 f i j a v i j a = v := by
  simp [upd3]

/-- Writing a cell leaves every other cell unchanged. -/
theorem upd3_other {α : Type} (f : ℕ → ℕ → ℕ → α) (i j a : ℕ) (v : α)
    (i' j' a' : ℕ) (h : ¬(i' = i ∧ j' = j ∧ a' = a)) :
    upd3 f i j a v i' j' a' = f i' j' a' := by
  simp only [upd3, if_neg h]

/-- A lexical-fill step writes scores only in cells `(j-1, j, _)`. -/
theorem lexStep_score_other (P : Parser) (j : ℕ) (ch : Chart) (q : Production)
    (i' j' a' : ℕ) (h : ¬(i' = j - 1 ∧ j' = j)) :
    (lexStep P j ch q).score i' j' a' = ch.score i' j' a' := by
  cases q with
  | lex lhs tok prob =>
    exact upd3_other ch.score (j-1) j (idxOf P.index lhs) prob i' j' a'
      (fun hc => h ⟨hc.1, hc.2.1⟩)
  | bin lhs l r prob => rfl

/-- A lexical-fill step writes backpointers only in cells `(j, j, _)`. -/
theorem lexStep_back_other (P : Parser) (j : ℕ) (ch : Chart) (q : Production)
    (i' j' a' : ℕ) (h : ¬(i' = j ∧ j' = j)) :
    (lexStep P j ch q).back i' j' a' = ch.back i' j' a' := by
  cases q with
  | lex lhs tok prob =>
    exact upd3_other ch.back j j (idxOf P.index lhs) (some (.tok tok)) i' j' a'
      (fun hc => h ⟨hc.1, hc.2.1⟩)
  | bin lhs l r prob => rfl

/-- A binary-fill step writes scores only in cells `(i, j, _)`. -/
theorem binStep_score_other (P : Parser) (i k j : ℕ) (ch : Chart) (q : Production)
    (i' j' a' : ℕ) (h : ¬(i' = i ∧ j' = j)) :
    (binStep P i k j ch q).score i' j' a' = ch.score i' j' a' := by
  cases q with
  | lex lhs tok prob => rfl
  | bin lhs l r prob =>
    rw [binStep]
    split
    · exact upd3_other ch.score i j (idxOf P.index lhs) _ i' j' a'
        (fun hc => h ⟨hc.1, hc.2.1⟩)
    · rfl

/-- A binary-fill step writes backpointers only in cells `(i, j, _)`. -/
theorem binStep_back_other (P : Parser) (i k j : ℕ) (ch : Chart) (q : Production)
    (i' j' a' : ℕ) (h : ¬(i' = i ∧ j' = j)) :
    (binStep P i k j ch q).back i' j' a' = ch.back i' j' a' := by
  cases q with
  | lex lhs tok prob => rfl
  | bin lhs l r prob =>
    rw [binStep]
    split
    · exact upd3_other ch.back i j (idxOf P.index lhs) _ i' j' a'
        (fun hc => h ⟨hc.1, hc.2.1⟩)
    · rfl

/-- The whole binary fill for end position `j` writes scores only in
cells `(i, j, _)` with `i < j - 1`. -/
theorem binFillI_score_other (P : Parser) (j : ℕ) (ch : Chart)
    (i' j' a' : ℕ) (h : ∀ i, i < j - 1 → ¬(i' = i ∧ j' = j)) :
    (binFillI P j ch).score i' j' a' = ch.score i' j' a' := by
  rw [binFillI]
  refine foldl_inv (fun c => c.score i' j' a' = ch.score i' j' a') _ _ ch rfl ?_
  intro i hi c hc
  rw [binFillK]
  refine foldl_inv (fun c => c.score i' j' a' = ch.score i' j' a') _ _ c hc ?_
  intro k _ c' hc'
  refine foldl_inv (fun c => c.score i' j' a' = ch.score i' j' a') _ _ c' hc' ?_
  intro q _ c'' hc''
  rw [binStep_score_other P i k j c'' q i' j' a'
    (h i (List.mem_range.mp (List.mem_reverse.mp hi)))]
  exact hc''

/-- The whole binary fill for end position `j` writes backpointers only
in cells `(i, j, _)` with `i < j - 1`. -/
theorem binFillI_back_other (P : Parser) (j : ℕ) (ch : Chart)
    (i' j' a' : ℕ) (h : ∀ i, i < j - 1 → ¬(i' = i ∧ j' = j)) :
    (binFillI P j ch).back i' j' a' = ch.back i' j' a' := by
  rw [binFillI]
  refine foldl_inv (fun c => c.back i' j' a' = ch.back i' j' a') _ _ ch rfl ?_
  intro i hi c hc
  rw [binFillK]
  refine foldl_inv (fun c => c.back i' j' a' = ch.back i' j' a') _ _ c hc ?_
  intro k _ c' hc'
  refine foldl_inv (fun c => c.back i' j' a' = ch.back i' j' a') _ _ c' hc' ?_
  intro q _ c'' hc''
  rw [binStep_back_other P i k j c'' q i' j' a'
    (h i (List.mem_range.mp (List.mem_reverse.mp hi)))]
  exact hc''

/-- An outer-loop iteration for end position `j` leaves every score cell
of a different column unchanged. -/
theorem fillJ_score_other (P : Parser) (ws : List Tok) (j : ℕ) (ch : Chart)
    (i' j' a' : ℕ) (h : j' ≠ j) :
    (fillJ P ws j ch).score i' j' a' = ch.score i' j' a' := by
  rw [fillJ]
  rw [binFillI_score_other P j _ i' j' a' (fun i _ hc => h hc.2)]
  rw [lexFill]
  refine foldl_inv (fun c => c.score i' j' a' = ch.score i' j' a') _ _ ch rfl ?_
  intro q _ c hc
  rw [lexStep_score_other P j c q i' j' a' (fun hc' => h hc'.2)]
  exact hc

/-- An outer-loop iteration for end position `j` leaves every
backpointer cell of a different column unchanged. -/
theorem fillJ_back_other (P : Parser) (ws : List Tok) (j : ℕ) (ch : Chart)
    (i' j' a' : ℕ) (h : j' ≠ j) :
    (fillJ P ws j ch).back i' j' a' = ch.back i' j' a' := by
  rw [fillJ]
  rw [binFillI_back_other P j _ i' j' a' (fun i _ hc => h hc.2)]
  rw [lexFill]
  refine foldl_inv (fun c => c.back i' j' a' = ch.back i' j' a') _ _ ch rfl ?_
  intro q _ c hc
  rw [lexStep_back_other P j c q i' j' a' (fun hc' => h hc'.2)]
  exact hc

/-- Folding the lexical-fill step over a production list that contains a
given lexical production, every production of the list addressing the
same codebook index being that very production, leaves the production's
probability in `score[j-1, j, a]` and its token in `back[j, j, a]`. -/
theorem lexFold_cell (P : Parser) (j : ℕ) (lhs : Sym) (tok : Tok) (prob : ℚ) :
    ∀ (l : List Production) (ch : Chart),
      Production.lex lhs tok prob ∈ l →
      (∀ l' t' p', Production.lex l' t' p' ∈ l →
        idxOf P.index l' = idxOf P.index lhs →
        Production.lex l' t' p' = Production.lex lhs tok prob) →
      (l.foldl (lexStep P j) ch).score (j-1) j (idxOf P.index lhs) = prob ∧
      (l.foldl (lexStep P j) ch).back j j (idxOf P.index lhs) = some (BackPtr.tok tok)
  | [], _, hmem, _ => absurd hmem (List.not_mem_nil _)
  | q :: rest, ch, hmem, huniq => by
    have hrest : ∀ l' t' p', Production.lex l' t' p' ∈ rest →
        idxOf P.index l' = idxOf P.index lhs →
        Production.lex l' t' p' = Production.lex lhs tok prob :=
      fun l' t' p' hm hi => huniq l' t' p' (List.mem_cons_of_mem q hm) hi
    by_cases hhit : ∃ l' t' p', q = Production.lex l' t' p' ∧
        idxOf P.index l' = idxOf P.index lhs
    · obtain ⟨l', t', p', rfl, hidx⟩ := hhit
      have hq := huniq l' t' p' (List.mem_cons_self _ _) hidx
      rw [List.foldl_cons]
      rw [hq]
      have hQ : ∀ c : Chart,
          (c.score (j-1) j (idxOf P.index lhs) = prob ∧
           c.back j j (idxOf P.index lhs) = some (BackPtr.tok tok)) →
          ∀ x ∈ rest,
          ((lexStep P j c x).score (j-1) j (idxOf P.index lhs) = prob ∧
           (lexStep P j c x).back j j (idxOf P.index lhs) = some (BackPtr.tok tok)) := by
        intro c hc x hx
        cases x with
        | bin l1 l2 l3 p1 => exact hc
        | lex lx tx px =>
          by_cases hix : idxOf P.index lx = idxOf P.index lhs
          · have := hrest lx tx px hx hix
            rw [this, lexStep]
            constructor
            · exact upd3_same ch.score (j-1) j (idxOf P.index lhs) prob ▸
                upd3_same c.score (j-1) j (idxOf P.index lhs) prob
            · exact upd3_same c.back j j (idxOf P.index lhs) (some (BackPtr.tok tok))
          · rw [lexStep]
            constructor
            · dsimp only
              rw [upd3_other c.score (j-1) j (idxOf P.index lx) px
                (j-1) j (idxOf P.index lhs) (fun hcon => hix hcon.2.2.symm)]
              exact hc.1
            · dsimp only
              rw [upd3_other c.back j j (idxOf P.index lx) (some (BackPtr.tok tx))
                j j (idxOf P.index lhs) (fun hcon => hix hcon.2.2.symm)]
              exact hc.2
      refine foldl_inv
        (fun c : Chart => c.score (j-1) j (idxOf P.index lhs) = prob ∧
          c.back j j (idxOf P.index lhs) = some (BackPtr.tok tok)) _ rest _ ?_
        (fun x hx c hc => hQ c hc x hx)
      rw [lexStep]
      exact ⟨upd3_same _ (j-1) j (idxOf P.index lhs) prob,
        upd3_same _ j j (idxOf P.index lhs) (some (BackPtr.tok tok))⟩
    · have hq : Production.lex lhs tok prob ∈ rest := by
        rcases List.mem_cons.mp hmem with heq | h
        · exact absurd ⟨lhs, tok, prob, heq.symm, rfl⟩ hhit
        · exact h
      rw [List.foldl_cons]
      exact lexFold_cell P j lhs tok prob rest (lexStep P j ch q) hq hrest

/-- After the outer-loop iteration for end position `j`, the cells of a
uniquely-addressed matching lexical production hold its probability at
`score[j-1, j, a]` and its token at `back[j, j, a]` (the binary fill of
the same iteration never touches row `j-1` of column `j`, nor the
diagonal). -/
theorem fillJ_cell (P : Parser) (ws : List Tok) (j : ℕ) (lhs : Sym) (tok : Tok)
    (prob : ℚ) (ch : Chart)
    (hmem : Production.lex lhs tok prob ∈ P.prods)
    (htok : ws.getD (j-1) "" = tok)
    (huniq : ∀ l' t' p', Production.lex l' t' p' ∈ P.prods →
      t' = tok → idxOf P.index l' = idxOf P.index lhs →
      Production.lex l' t' p' = Production.lex lhs tok prob) :
    (fillJ P ws j ch).score (j-1) j (idxOf P.index lhs) = prob ∧
    (fillJ P ws j ch).back j j (idxOf P.index lhs) = some (BackPtr.tok tok) := by
  rw [fillJ]
  have hfil : Production.lex lhs tok prob ∈ P.prods.filter (lexMatches (ws.getD (j-1) "")) := by
    rw [List.mem_filter]
    refine ⟨hmem, ?_⟩
    rw [htok, lexMatches]
    exact beq_self_eq_true tok
  have huniq' : ∀ l' t' p',
      Production.lex l' t' p' ∈ P.prods.filter (lexMatches (ws.getD (j-1) "")) →
      idxOf P.index l' = idxOf P.index lhs →
      Production.lex l' t' p' = Production.lex lhs tok prob := by
    intro l' t' p' hm hi
    rcases List.mem_filter.mp hm with ⟨hm', hmatch⟩
    rw [htok, lexMatches] at hmatch
    exact huniq l' t' p' hm' (eq_of_beq hmatch) hi
  have hlex := lexFold_cell P j lhs tok prob _ ch hfil huniq'
  constructor
  · rw [binFillI_score_other P j _ _ _ _ (fun i hi hc => by omega)]
    exact hlex.1
  · rw [binFillI_back_other P j _ _ _ _ (fun i hi hc => by omega)]
    exact hlex.2

/-- Shape invariant of every chart the fill produces: a written
backpointer is either a token on the diagonal (`i = j`, the lexical
fill writes `back[j, j, a]`) or a split on a span of width at least two
(the binary fill writes `back[i, j, a]` with `i < j - 1` only). -/
theorem fillChart_back_shape (P : Parser) (ws : List Tok) (i j a : ℕ) (x : BackPtr)
    (hx : (fillChart P ws).back i j a = some x) :
    (∃ t, x = BackPtr.tok t ∧ i = j) ∨
    (∃ k b c, x = BackPtr.split k b c ∧ i + 2 ≤ j) := by
  revert i j a x
  rw [fillChart]
  refine foldl_inv
    (fun ch : Chart => ∀ i j a x, ch.back i j a = some x →
      (∃ t, x = BackPtr.tok t ∧ i = j) ∨
      (∃ k b c, x = BackPtr.split k b c ∧ i + 2 ≤ j))
    _ _ _ ?_ ?_
  · intro i j a x hx
    exact absurd hx (by simp [Chart.init])
  · intro j0 _ ch hch
    rw [fillJ]
    have hlex : ∀ i j a x, (lexFill P (ws.getD (j0-1) "") j0 ch).back i j a = some x →
        (∃ t, x = BackPtr.tok t ∧ i = j) ∨
        (∃ k b c, x = BackPtr.split k b c ∧ i + 2 ≤ j) := by
      rw [lexFill]
      refine foldl_inv
        (fun c : Chart => ∀ i j a x, c.back i j a = some x →
          (∃ t, x = BackPtr.tok t ∧ i = j) ∨
          (∃ k b c, x = BackPtr.split k b c ∧ i + 2 ≤ j))
        _ _ _ hch ?_
      intro q _ c hc i j a x hx
      cases q with
      | bin l1 l2 l3 p1 => exact hc i j a x hx
      | lex lx tx px =>
        rw [lexStep] at hx
        dsimp only at hx
        by_cases hcell : i = j0 ∧ j = j0 ∧ a = idxOf P.index lx
        · rw [upd3] at hx
          rw [if_pos hcell] at hx
          exact Or.inl ⟨tx, (Option.some_injective _ hx).symm,
            hcell.1.trans hcell.2.1.symm⟩
        · rw [upd3_other c.back j0 j0 (idxOf P.index lx) _ i j a hcell] at hx
          exact hc i j a x hx
    rw [binFillI]
    refine foldl_inv
      (fun c : Chart => ∀ i j a x, c.back i j a = some x →
        (∃ t, x = BackPtr.tok t ∧ i = j) ∨
        (∃ k b c, x = BackPtr.split k b c ∧ i + 2 ≤ j))
      _ _ _ hlex ?_
    intro i0 hi0 c hc
    have hi0' : i0 < j0 - 1 := List.mem_range.mp (List.mem_reverse.mp hi0)
    rw [binFillK]
    refine foldl_inv
      (fun c : Chart => ∀ i j a x, c.back i j a = some x →
        (∃ t, x = BackPtr.tok t ∧ i = j) ∨
        (∃ k b c, x = BackPtr.split k b c ∧ i + 2 ≤ j))
      _ _ _ hc ?_
    intro k _ c' hc'
    refine foldl_inv
      (fun c : Chart => ∀ i j a x, c.back i j a = some x →
        (∃ t, x = BackPtr.tok t ∧ i = j) ∨
        (∃ k b c, x = BackPtr.split k b c ∧ i + 2 ≤ j))
      _ _ _ hc' ?_
    intro q _ c'' hc'' i j a x hx
    cases q with
    | lex lx tx px => exact hc'' i j a x hx
    | bin lb l2 l3 pb =>
      rw [binStep] at hx
      by_cases hlt : c''.score i0 j0 (idxOf P.index lb) <
          pb * c''.score i0 k (idxOf P.index l2) * c''.score k j0 (idxOf P.index l3)
      · rw [if_pos hlt] at hx
        dsimp only at hx
        by_cases hcell : i = i0 ∧ j = j0 ∧ a = idxOf P.index lb
        · rw [upd3, if_pos hcell] at hx
          refine Or.inr ⟨k, l2, l3, (Option.some_injective _ hx).symm, ?_⟩
          omega
        · rw [upd3_other c''.back i0 j0 (idxOf P.index lb) _ i j a hcell] at hx
          exact hc'' i j a x hx
      · rw [if_neg hlt] at hx
        exact hc'' i j a x hx

/-- The final-chart version of `fillJ_cell`: iterations of the outer
loop other than `j` never touch column `j` scores nor the diagonal cell
`(j, j)`, so the values written by iteration `j` survive to the end of
the fill. -/
theorem fillChart_lex_cell (P : Parser) (ws : List Tok) (j : ℕ) (lhs : Sym)
    (tok : Tok) (prob : ℚ)
    (hj1 : 1 ≤ j) (hj2 : j ≤ ws.length)
    (hmem : Production.lex lhs tok prob ∈ P.prods)
    (htok : ws.getD (j-1) "" = tok)
    (huniq : ∀ l' t' p', Production.lex l' t' p' ∈ P.prods →
      t' = tok → idxOf P.index l' = idxOf P.index lhs →
      Production.lex l' t' p' = Production.lex lhs tok prob) :
    (fillChart P ws).score (j-1) j (idxOf P.index lhs) = prob ∧
    (fillChart P ws).back j j (idxOf P.index lhs) = some (BackPtr.tok tok) := by
  rw [fillChart]
  have hsplit : List.range' 1 ws.length =
      (List.range' 1 (j-1) ++ [j]) ++ List.range' (j+1) (ws.length - j) := by
    rw [List.append_assoc]
    have hcons : [j] ++ List.range' (j+1) (ws.length - j) =
        List.range' j (ws.length - j + 1) := by
      rw [List.range'_succ]
      rfl
    rw [hcons]
    have h4 := List.range'_append_1 1 (j-1) (ws.length - j + 1)
    rw [show 1 + (j-1) = j by omega] at h4
    rw [h4]
    congr 1
    omega
  rw [hsplit, List.foldl_append, List.foldl_append]
  set ch0 : Chart := (List.range' 1 (j-1)).foldl (fun ch j' => fillJ P ws j' ch) Chart.init
  have hstep := fillJ_cell P ws j lhs tok prob ch0 hmem htok huniq
  refine foldl_inv
    (fun c : Chart => c.score (j-1) j (idxOf P.index lhs) = prob ∧
      c.back j j (idxOf P.index lhs) = some (BackPtr.tok tok))
    _ _ _ ?_ ?_
  · simpa using hstep
  · intro j' hj' c hc
    have hne : j ≠ j' := by
      rcases List.mem_range'_1.mp hj' with ⟨hlo, _⟩
      omega
    constructor
    · rw [fillJ_score_other P ws j' c (j-1) j _ hne]
      exact hc.1
    · rw [fillJ_back_other P ws j' c j j _ hne]
      exact hc.2

/-- C9: constructing a parser from a grammar containing any production
that is neither lexical-unary nor binary-non-lexical fails at
construction time with the `ValueError` message
`grammar not in Chomsky normal form`, before any parse is attempted; and
whenever construction succeeds every production was CNF, so the
chart-filling core (which only runs on a constructed parser) is never
invoked with a non-CNF grammar. -/
theorem nonCNF_rejected_at_construction (rs : List RawProduction) :
    ((∃ p ∈ rs, p.is_cnf = false) →
      mkParser rs = .error "grammar not in Chomsky normal form") ∧
    (∀ P, mkParser rs = .ok P → ∀ p ∈ rs, p.is_cnf = true) := by
  constructor
  · rintro ⟨p, hp, hcnf⟩
    have hall : ¬ (is_chomsky_normal_form rs = true) := by
      rw [is_chomsky_normal_form, List.all_eq_true]
      intro hforall
      rw [hforall p hp] at hcnf
      exact Bool.noConfusion hcnf
    rw [mkParser, load_grammar, if_neg hall]
  · intro P hP p hp
    by_cases hall : is_chomsky_normal_form rs = true
    · exact List.all_eq_true.mp (by rwa [is_chomsky_normal_form] at hall) p hp
    · rw [mkParser, load_grammar, if_neg hall] at hP
      exact Except.noConfusion hP

/-- C9 witness: the grammar with the trinary rule `A -> B C D` (the
repository's `non_cnf.pcfg` scenario) is rejected with exactly the
source's error message. -/
theorem nonCNF_rejected_witness :
    mkParser nonCnfRaw = .error "grammar not in Chomsky normal form" :=
  (nonCNF_rejected_at_construction nonCnfRaw).1
    ⟨⟨"A", [.nonterm "B", .nonterm "C", .nonterm "D"], 1⟩, by simp [nonCnfRaw], by decide⟩

/-- C10: whenever the root symbol is the left-hand side of at least one
lexical production of the grammar, `build_tree` immediately returns a
one-child tree labelled by the root whose sole child is the raw content
of the diagonal cell `back[row+1, row+1, index(root)]`, independently of
`col`; in particular, when that cell is unset the result is a tree with
a single `None` child, not the null-tree sentinel. -/
theorem build_tree_lexical_shortcut (P : Parser) (back : ℕ → ℕ → ℕ → Option BackPtr)
    (n fuel row col : ℕ) (root : Sym)
    (hlex : root ∈ P.lexLhsSyms) (hrow : row + 1 ≤ n) :
    build_tree P back n (fuel+1) row col root =
      .ok (.lexNode root (back (row+1) (row+1) (idxOf P.index root))) := by
  have hcb : root ∈ P.index := lexLhs_mem_index P root hlex
  simp [build_tree, hcb, hlex, hrow]

/-- C10 witness: on an all-empty backpointer table, with the lexical
start symbol of `lexStartParser` as root and an arbitrary column `17`,
the result is the root-labelled tree with a single `None` child. -/
theorem build_tree_lexical_shortcut_witness :
    build_tree lexStartParser (fun _ _ _ => none) 5 1 0 17 "B" =
      .ok (.lexNode "B" none) :=
  build_tree_lexical_shortcut lexStartParser (fun _ _ _ => none) 5 0 0 17 "B"
    (by decide) (by decide)

/-- C8: the `parse` method leaves the parser state unchanged, so two
consecutive calls with the same tokens return structurally identical
trees, and the result is the pure function `parse` of the parser state
(grammar and codebook) and the tokens.  The method binds no attribute of
`self`; the chart and backpointer arrays are local to each call. -/
theorem parse_deterministic (P : Parser) (ws : List Tok) :
    (parseRun P ws).2 = P ∧
    (parseRun ((parseRun P ws).2) ws).1 = (parseRun P ws).1 ∧
    (parseRun P ws).1 = parse P ws :=
  ⟨rfl, rfl, rfl⟩

/-- Shared one-step characterisation of the recursive case of
`build_tree`: for a root that is not a lexical left-hand side, with the
span indices in bounds, the null tree is returned exactly when the
consulted cell is empty, and a stored split yields the two-child node of
the recursive results when both succeed. -/
theorem build_tree_cell_step (P : Parser)
    (back : ℕ → ℕ → ℕ → Option BackPtr) (n fuel row col : ℕ) (root : Sym)
    (hcb : root ∈ P.index) (hlex : root ∉ P.lexLhsSyms)
    (hrow : row ≤ n) (hcol : col ≤ n) :
    (build_tree P back n (fuel+1) row col root = .ok .null ↔
      back row col (idxOf P.index root) = none) ∧
    (∀ k b c, back row col (idxOf P.index root) = some (.split k b c) →
      ∀ t₁ t₂, build_tree P back n fuel row k b = .ok t₁ →
        build_tree P back n fuel k col c = .ok t₂ →
        build_tree P back n (fuel+1) row col root = .ok (.binNode root t₁ t₂)) := by
  constructor
  · rw [build_tree]
    simp only [if_pos hcb, if_neg hlex, if_pos (And.intro hrow hcol)]
    cases hcell : back row col (idxOf P.index root) with
    | none => simp
    | some x =>
      cases x with
      | tok t => simp
      | split k b c =>
        simp only [Option.some.injEq, reduceCtorEq, iff_false]
        cases h1 : build_tree P back n fuel row k b with
        | ok t1 =>
          cases h2 : build_tree P back n fuel k col c with
          | ok t2 => simp
          | error e => simp
        | error e => simp
  · intro k b c hcell t₁ t₂ h1 h2
    rw [build_tree]
    simp only [if_pos hcb, if_neg hlex, if_pos (And.intro hrow hcol), hcell, h1, h2]

/-- C5 (amended): for every cell whose symbol is not a lexical left-hand
side (the only case in which `build_tree` consults the cell
`back[row, col, index(root)]` at all), the null-tree sentinel is
returned exactly when that cell holds nothing, and when the cell holds
`Split(k, left, right)` the result is the two-child tree built from
`build(row, k, left)` and `build(k, col, right)`.  When the symbol is a
lexical left-hand side the cell is ignored and a one-child tree is
returned instead (the immediate base case of `build_tree`), which is
why the contract of the claim does not hold of the code
unconditionally. -/
theorem build_tree_nonlexical_contract (P : Parser)
    (back : ℕ → ℕ → ℕ → Option BackPtr) (n fuel row col : ℕ) (root : Sym)
    (hcb : root ∈ P.index) (hlex : root ∉ P.lexLhsSyms)
    (hrow : row ≤ n) (hcol : col ≤ n) :
    (build_tree P back n (fuel+1) row col root = .ok .null ↔
      back row col (idxOf P.index root) = none) ∧
    (∀ k b c, back row col (idxOf P.index root) = some (.split k b c) →
      ∀ t₁ t₂, build_tree P back n fuel row k b = .ok t₁ →
        build_tree P back n fuel k col c = .ok t₂ →
        build_tree P back n (fuel+1) row col root = .ok (.binNode root t₁ t₂)) :=
  build_tree_cell_step P back n fuel row col root hcb hlex hrow hcol

/-- C7 (amended): `build_tree` does not detect internal inconsistencies
in the backpointer table.  A `Split(k, left, right)` stored for the span
`[row, col)` is traversed without any check that `row < k < col`: as
long as the three indices are in bounds and the child cells are empty,
the call silently returns a two-child tree whose children are null-tree
sentinels, and no exception is raised.  The null tree itself arises
exactly from an empty cell at the consulted span
(`build_tree_cell_step`), which the source realises by
catching the `TypeError` of unpacking `None` rather than by an explicit
emptiness check. -/
theorem build_tree_silent_on_inconsistent_split (P : Parser)
    (back : ℕ → ℕ → ℕ → Option BackPtr) (n fuel row col k : ℕ) (root b c : Sym)
    (hcbR : root ∈ P.index) (hlexR : root ∉ P.lexLhsSyms)
    (hcbB : b ∈ P.index) (hlexB : b ∉ P.lexLhsSyms)
    (hcbC : c ∈ P.index) (hlexC : c ∉ P.lexLhsSyms)
    (hrow : row ≤ n) (hcol : col ≤ n) (hk : k ≤ n)
    (hcell : back row col (idxOf P.index root) = some (.split k b c))
    (hbnone : back row k (idxOf P.index b) = none)
    (hcnone : back k col (idxOf P.index c) = none) :
    build_tree P back n (fuel+2) row col root = .ok (.binNode root .null .null) := by
  have h1 : build_tree P back n (fuel+1) row k b = .ok .null :=
    (build_tree_cell_step P back n fuel row k b hcbB hlexB hrow hk).1.mpr hbnone
  have h2 : build_tree P back n (fuel+1) k col c = .ok .null :=
    (build_tree_cell_step P back n fuel k col c hcbC hlexC hk hcol).1.mpr hcnone
  exact (build_tree_cell_step P back n (fuel+1) row col root
    hcbR hlexR hrow hcol).2 k b c hcell .null .null h1 h2

/-- C7 counterexample: on the backpointer table `badBack`, whose only
entry is the malformed `Split(0, B, C)` for the span `[0, 2)` (the split
point `0` violates `i < k < j`), `build_tree` does not fail: it returns
a two-child tree with null-tree children through normal control flow. -/
theorem inconsistent_split_cex :
    build_tree nonlexParser badBack 2 3 0 2 "S" = .ok (.binNode "S" .null .null) ∧
    badBack 0 2 (idxOf nonlexParser.index "S") = some (.split 0 "B" "C") := by
  constructor
  · rfl
  · rfl

/-- C7 witness: the amended no-detection theorem applied to the
concrete malformed table `badBack` (split point `k = 0` at span
`[0, 2)`). -/
theorem inconsistent_split_witness :
    build_tree nonlexParser badBack 2 2 0 2 "S" = .ok (.binNode "S" .null .null) :=
  build_tree_silent_on_inconsistent_split nonlexParser badBack 2 0 0 2 0 "S" "B" "C"
    (by decide) (by decide) (by decide) (by decide) (by decide) (by decide)
    (by decide) (by decide) (by decide) (by decide) (by decide) (by decide)

/-- C5 counterexample: in the parse of `["left", "right"]` under the
trivial grammar, the cell `back[0, 1, index(B)]` is reachable from the
top-level call (the root split recurses into `build(0, 1, B)`), holds
nothing, and yet `build(0, 1, B)` returns the non-null tree `(B left)`
instead of the null-tree sentinel, because `B` is a lexical left-hand
side and the code reads the diagonal cell `back[1, 1, index(B)]`
instead. -/
theorem build_tree_contract_cex :
    (fillChart trivParser ["left", "right"]).back 0 1 (idxOf trivParser.index "B") = none ∧
    build_tree trivParser (fillChart trivParser ["left", "right"]).back 2 2 0 1 "B" =
      .ok (.lexNode "B" (some (.tok "left"))) ∧
    PTree.lexNode "B" (some (BackPtr.tok "left")) ≠ PTree.null ∧
    parse trivParser ["left", "right"] =
      .ok (.binNode "A" (.lexNode "B" (some (.tok "left")))
        (.lexNode "C" (some (.tok "right")))) := by
  refine ⟨by with_unfolding_all rfl, by with_unfolding_all rfl, ?_, by with_unfolding_all rfl⟩
  intro h
  exact PTree.noConfusion h

/-- C5 witness: the amended contract applied at the top cell of the
trivial grammar's chart, whose split `(1, B, C)` is assembled into the
expected two-child tree. -/
theorem build_tree_contract_witness :
    build_tree trivParser (fillChart trivParser ["left", "right"]).back 2 2 0 2 "A" =
      .ok (.binNode "A" (.lexNode "B" (some (.tok "left")))
        (.lexNode "C" (some (.tok "right")))) :=
  (build_tree_nonlexical_contract trivParser
      (fillChart trivParser ["left", "right"]).back 2 1 0 2 "A"
      (by decide) (by decide) (by decide) (by decide)).2
    1 "B" "C" (by with_unfolding_all rfl)
    (.lexNode "B" (some (.tok "left"))) (.lexNode "C" (some (.tok "right")))
    (by with_unfolding_all rfl) (by with_unfolding_all rfl)

/-- C6 (amended): for every position `j` and every lexical production
`Lexical(lhs, token, prob)` whose token equals the `j`-th input token
(uniquely for its left-hand side and token), the fill sets
`score[j-1][j][index(lhs)] = prob` but stores the token backpointer in
the diagonal cell `back[j][j][index(lhs)]`, not in `back[j-1][j]`:
a token backpointer only ever sits in cells with `i = j`, and every
width-one cell `back[i][i+1]` stays empty for the whole parse.  The
well-formedness hypothesis is the codebook-coverage precondition the
spec gives the chart parser (without it the source derails inside the
binary fill instead of completing the chart). -/
theorem lexical_fill_layout (P : Parser) (ws : List Tok) (j : ℕ) (lhs : Sym)
    (tok : Tok) (prob : ℚ)
    (_hwf : wfGrammar P = true)
    (hj1 : 1 ≤ j) (hj2 : j ≤ ws.length)
    (hmem : Production.lex lhs tok prob ∈ P.prods)
    (htok : ws.getD (j-1) "" = tok)
    (huniq : ∀ l' t' p', Production.lex l' t' p' ∈ P.prods →
      t' = tok → l' = lhs → p' = prob) :
    (fillChart P ws).score (j-1) j (idxOf P.index lhs) = prob ∧
    (fillChart P ws).back j j (idxOf P.index lhs) = some (BackPtr.tok tok) ∧
    (∀ i' j' a t, (fillChart P ws).back i' j' a = some (BackPtr.tok t) → i' = j') ∧
    (∀ i' a, (fillChart P ws).back i' (i'+1) a = none) := by
  have huniq' : ∀ l' t' p', Production.lex l' t' p' ∈ P.prods →
      t' = tok → idxOf P.index l' = idxOf P.index lhs →
      Production.lex l' t' p' = Production.lex lhs tok prob := by
    intro l' t' p' hm ht hi
    have hli : l' ∈ P.index := lhs_mem_index P (Production.lex l' t' p') hm
    have hlhsi : lhs ∈ P.index := lhs_mem_index P (Production.lex lhs tok prob) hmem
    have hl : l' = lhs := idxOf_inj P.index (nodup_codebookOf _) l' lhs hli hlhsi hi
    have hp : p' = prob := huniq l' t' p' hm ht hl
    rw [hl, ht, hp]
  have hmain := fillChart_lex_cell P ws j lhs tok prob hj1 hj2 hmem htok huniq'
  refine ⟨hmain.1, hmain.2, ?_, ?_⟩
  · intro i' j' a t hx
    rcases fillChart_back_shape P ws i' j' a _ hx with ⟨t', _, hij⟩ | ⟨k, b, c, heq, _⟩
    · exact hij
    · exact BackPtr.noConfusion heq
  · intro i' a
    cases hc : (fillChart P ws).back i' (i'+1) a with
    | none => rfl
    | some x =>
      rcases fillChart_back_shape P ws i' (i'+1) a x hc with ⟨t', _, hij⟩ | ⟨k, b, c, _, hw⟩
      · omega
      · omega

/-- C6 witness: the amended layout theorem at `j = 1`, production
`B -> left [1.0]` of the trivial grammar. -/
theorem lexical_fill_layout_witness :
    (fillChart trivParser ["left", "right"]).score 0 1 (idxOf trivParser.index "B") = 1 ∧
    (fillChart trivParser ["left", "right"]).back 1 1 (idxOf trivParser.index "B") =
      some (BackPtr.tok "left") := by
  have h := lexical_fill_layout trivParser ["left", "right"] 1 "B" "left" 1
    (by with_unfolding_all decide) (by decide) (by decide)
    (by with_unfolding_all decide) (by decide) ?_
  · exact ⟨h.1, h.2.1⟩
  · intro l' t' p' hm ht hl
    simp only [trivParser, List.mem_cons, List.not_mem_nil, or_false] at hm
    rcases hm with h1 | h1 | h1
    · exact absurd h1 (by simp)
    · exact (Production.lex.injEq _ _ _ _ _ _).mp h1 |>.2.2
    · rw [hl] at h1
      exact absurd ((Production.lex.injEq _ _ _ _ _ _).mp h1).1 (by decide)

/-- C6 counterexample: in the parse of `["left", "right"]` under the
trivial grammar, the cell `back[0][1][index(B)]` that the claim says
receives the token `left` in fact stays empty (the token goes to the
diagonal cell `back[1][1][index(B)]`). -/
theorem lexical_fill_cex :
    (fillChart trivParser ["left", "right"]).back 0 1 (idxOf trivParser.index "B") = none ∧
    (fillChart trivParser ["left", "right"]).back 0 1 (idxOf trivParser.index "B") ≠
      some (BackPtr.tok "left") := by
  constructor
  · with_unfolding_all rfl
  · intro h
    rw [show (fillChart trivParser ["left", "right"]).back 0 1
      (idxOf trivParser.index "B") = none from by with_unfolding_all rfl] at h
    exact Option.noConfusion h

/-- C1 (failing-input evaluation): the dual-role grammar
`S -> x [0.5] | S S [0.5]` passes CNF validation; on input
`["x", "x"]` the chart's own best score for the full span is `1/8` (the
probability of the unique derivation `(S (S x) (S x))` of the input),
yet `parse` returns the one-leaf tree `(S x)` — a derivation of the
single token `"x"` with probability `1/2`, not a derivation of the
input at all (its yield is `["x"]`). -/
theorem parse_not_optimal_on_dual_role :
    mkParser dualRoleRaw = .ok dualRoleParser ∧
    (fillChart dualRoleParser ["x", "x"]).score 0 2 (idxOf dualRoleParser.index "S") = 1/8 ∧
    parse dualRoleParser ["x", "x"] = .ok (.lexNode "S" (some (.tok "x"))) ∧
    leaves (.lexNode "S" (some (BackPtr.tok "x"))) = ["x"] ∧
    ["x"] ≠ ["x", "x"] := by
  exact ⟨by with_unfolding_all rfl, by with_unfolding_all decide,
    by with_unfolding_all rfl, rfl, by decide⟩

/-- C2 (failing-input evaluation): under the CNF grammar `B -> a
[1.0]` with start symbol `B`, `parse ["b"]` returns the tree `(B None)`:
its root label `B` is not the null sentinel, yet its leaf tokens `[]`
are not the input `["b"]`. -/
theorem parse_yield_violation :
    mkParser lexStartRaw = .ok lexStartParser ∧
    parse lexStartParser ["b"] = .ok (.lexNode "B" none) ∧
    PTree.lexNode "B" none ≠ PTree.null ∧
    leaves (.lexNode "B" none) = [] ∧ ([] : List Tok) ≠ ["b"] := by
  refine ⟨by with_unfolding_all rfl, by with_unfolding_all rfl, ?_, rfl, ?_⟩
  · intro h
    exact PTree.noConfusion h
  · intro h
    exact List.noConfusion h

/-- C3 (failing-input evaluation): the token `"c"` is outside the
lexical coverage of the grammar `B -> a [1.0]` (and there is no other
lexical path), yet `parse ["c"]` does not return the null tree: it
returns the non-null tree `(B None)`. -/
theorem parse_uncovered_token_not_null :
    parse lexStartParser ["c"] = .ok (.lexNode "B" none) ∧
    (∀ p ∈ lexStartParser.prods, ∀ l t q, p = Production.lex l t q → t ≠ "c") ∧
    PTree.lexNode "B" none ≠ PTree.null := by
  refine ⟨by with_unfolding_all rfl, ?_, ?_⟩
  · intro p hp l t q hpe
    simp only [lexStartParser, List.mem_cons, List.not_mem_nil, or_false] at hp
    rw [hp] at hpe
    intro ht
    rw [ht] at hpe
    exact absurd ((Production.lex.injEq _ _ _ _ _ _).mp hpe.symm).2.1 (by decide)
  · intro h
    exact PTree.noConfusion h

/-- C4 (failing-input evaluation): under the CNF grammar `B -> a
[1.0]` with start symbol `B` (which has no zero-width derivation),
`parse []` does not return the null tree: the reconstruction reads the
diagonal cell `back[1, 1, index(B)]` of a chart of shape `(1, 1, 1)`,
an out-of-bounds access that escapes as a numpy `IndexError`. -/
theorem parse_empty_input_crashes :
    mkParser lexStartRaw = .ok lexStartParser ∧
    parse lexStartParser [] = .error .idxErr := by
  exact ⟨by with_unfolding_all rfl, by with_unfolding_all rfl⟩

end PCKY
